import Mathlib

/-! Histogram by serial pass and by parallel reduction (ch05/fig_5_27-bis.cpp).

A shallow embedding of `main` of `src/ch05/fig_5_27-bis.cpp`.

* Samples are `uint8_t` values, embedded as `Nat`; the conversion of a drawn
  `int` to `uint8_t` is reduction modulo 256.
* Counters are `int`, embedded as `Int` with every `++` and `+=` reduced to the
  32-bit two's complement range by `wrap32`.
* `std::vector<int>` is `List Int`; an access `v[i]` outside the vector has no
  defined result and is embedded as `none`.
* `tbb::parallel_reduce` is a library routine: which sub-ranges are split off
  and which are processed one after the other by the same body is decided at
  run time.  The embedding takes this decision as a parameter, a `Schedule`.
-/

namespace Histogram

/-! ## Data model -/

/-- The constant `long int n = 1000000000` of `main`. -/
def n : Nat := 1000000000

/-- The constant `constexpr int num_bins = 256` of `main`. -/
def num_bins : Nat := 256

/-- The type `using vector_t = std::vector<int>`. -/
abbrev vector_t := List Int

/-- Value of a 32-bit `int` after an arithmetic result `x` is stored in it
(two's complement wrap-around). -/
def wrap32 (x : Int) : Int := (x + 2147483648) % 4294967296 - 2147483648

/-- Conversion of an `int` to `uint8_t`, as done when a draw is appended to
`std::vector<uint8_t> image`. -/
def to_uint8 (d : Int) : Nat := (d % 256).toNat

/-! ## Sample source -/

/-- The call `std::generate_n(std::back_inserter(image), n, [&]{ return uniform(mte); })`:
`count` times, draw from the generator (which advances its state `σ`) and
append the draw, converted to `uint8_t`, to `image`. -/
def generate_n {σ : Type} (uniform : σ → Int × σ) : Nat → σ → List Nat → List Nat × σ
  | 0, mte, image => (image, mte)
  | count + 1, mte, image =>
    let (d, mte') := uniform mte
    generate_n uniform count mte' (image ++ [to_uint8 d])

/-- The vector `image` after its initialisation in `main`: it starts empty and
receives `count` draws. -/
def image {σ : Type} (uniform : σ → Int × σ) (count : Nat) (mte : σ) : List Nat :=
  (generate_n uniform count mte []).1

/-! ## Histogram reducer -/

/-- The value `vector_t(num_bins)`: `nb` value-initialised counters. -/
def identity (nb : Nat) : vector_t := List.replicate nb 0

/-- The statement `v[i]++` on a `std::vector<int>`. -/
def incr (v : vector_t) (i : Nat) : Option vector_t :=
  if h : i < v.length then some (v.set i (wrap32 (v[i] + 1))) else none

/-- The call `std::for_each(first, last, [&v](uint8_t i){ v[i]++; })` over the
samples `r`, in index order. -/
def for_each : List Nat → vector_t → Option vector_t
  | [], v => some v
  | i :: r, v =>
    match incr v i with
    | some v' => for_each r v'
    | none => none

/-- Serial execution: `std::vector<int> hist(num_bins)` followed by the
`for_each` pass over the whole image. -/
def hist (nb : Nat) (img : List Nat) : Option vector_t :=
  for_each img (identity nb)

/-- First lambda of `parallel_reduce`: the accumulator `v` is taken by value,
every sample of the sub-range `r` increments its bin, `v` is returned. -/
def body (r : List Nat) (v : vector_t) : Option vector_t :=
  for_each r v

/-- The loop `for (int i = 0; i < num_bins; ++i) a[i] += b[i];` with `k`
iterations left to run and loop variable `i`. -/
def merge_loop (b : vector_t) : Nat → Nat → vector_t → Option vector_t
  | 0, _, a => some a
  | k + 1, i, a =>
    if h : i < a.length ∧ i < b.length then
      merge_loop b k (i + 1) (a.set i (wrap32 (a[i] + b[i])))
    else none

/-- Second lambda of `parallel_reduce`: `a` is taken by value, the loop adds
`b` into it bin by bin, `a` is returned. -/
def merge (nb : Nat) (a b : vector_t) : Option vector_t :=
  merge_loop b nb 0 a

/-- A run-time decomposition of a blocked range.
* `leaf`: the body lambda is applied to the whole range.
* `seq k l r`: the range is cut after `k` samples and one body processes both
  pieces in turn, the accumulator carried from the first to the second.
* `fork k l r`: the range is cut after `k` samples, the right piece is given
  to a split body whose accumulator starts from the identity, and the two
  results are joined by the reduction lambda. -/
inductive Schedule where
  | leaf : Schedule
  | seq : Nat → Schedule → Schedule → Schedule
  | fork : Nat → Schedule → Schedule → Schedule
  deriving Repr, DecidableEq

/-- Evaluation of a schedule on the range `r` with accumulator `v`. -/
def reduce (nb : Nat) : Schedule → List Nat → vector_t → Option vector_t
  | .leaf, r, v => body r v
  | .seq k l rt, r, v =>
    match reduce nb l (r.take k) v with
    | some v' => reduce nb rt (r.drop k) v'
    | none => none
  | .fork k l rt, r, v =>
    match reduce nb l (r.take k) v, reduce nb rt (r.drop k) (identity nb) with
    | some a, some b => merge nb a b
    | _, _ => none

/-- Parallel execution: `parallel_reduce(range, vector_t(num_bins), body, merge)`
over the whole image under the schedule `t`. -/
def hist_p (nb : Nat) (t : Schedule) (img : List Nat) : Option vector_t :=
  reduce nb t img (identity nb)

/-- A vector of `int`: every element is a 32-bit two's complement value. -/
def IsIntVec (v : vector_t) : Prop := ∀ c ∈ v, -2147483648 ≤ c ∧ c ≤ 2147483647

/-- Closed form of the body lambda: bin `j` of `v` advanced by the number of
samples of `r` equal to `j`, in 32-bit arithmetic. -/
def tally (r : List Nat) (v : vector_t) : vector_t :=
  (List.range v.length).map (fun j => wrap32 (v.getD j 0 + (r.count j : Int)))

/-- Closed form of the reduction lambda: bin-by-bin sum of two vectors in
32-bit arithmetic. -/
def addv (a b : vector_t) : vector_t := List.zipWith (fun x y => wrap32 (x + y)) a b

/-! ## Report and comparison -/

/-- The two output streams written by `main`. -/
inductive Stream where
  | cout : Stream
  | cerr : Stream
  deriving Repr, DecidableEq

/-- One insertion into a stream: a string literal, a `double` timing
(of a type `T` left open), or `std::endl`. -/
inductive Item (T : Type) where
  | text : String → Item T
  | value : T → Item T
  | endl : Item T
  deriving Repr, DecidableEq

/-- The comparison `hist != hist_p` of two `std::vector<int>`. -/
def mismatch (a b : vector_t) : Bool := a != b

/-- The three `std::cout` statements of `main`: the insertions of the
Serial / Parallel / Speed-up line, `div` being the division of `double`. -/
def timing_report {T : Type} (div : T → T → T) (t_serial t_parallel : T) :
    List (Stream × Item T) :=
  [(.cout, .text "Serial: "), (.cout, .value t_serial), (.cout, .text ", "),
   (.cout, .text "Parallel: "), (.cout, .value t_parallel), (.cout, .text ", "),
   (.cout, .text "Speed-up: "), (.cout, .value (div t_serial t_parallel)), (.cout, .endl)]

/-- The statement `std::cerr << "Parallel computation failed!!" << std::endl`. -/
def warning {T : Type} : List (Stream × Item T) :=
  [(.cerr, .text "Parallel computation failed!!"), (.cerr, .endl)]

/-- The end of `main`, from the first `std::cout` statement to `return 0`: the
insertions made, in order, and the exit status. -/
def report {T : Type} (div : T → T → T) (t_serial t_parallel : T) (hist hist_p : vector_t) :
    List (Stream × Item T) × Int :=
  let out := timing_report div t_serial t_parallel
  let out := if mismatch hist hist_p then out ++ warning else out
  (out, 0)

/-! ## The reducer in exact arithmetic -/

/-- The statement `v[i]++` in exact integer arithmetic, with a check: the
result is `none` when the new counter leaves `[0, bound]`. -/
def incr_exact (bound : Int) (v : vector_t) (i : Nat) : Option vector_t :=
  if h : i < v.length then
    if 0 ≤ v[i] + 1 ∧ v[i] + 1 ≤ bound then some (v.set i (v[i] + 1)) else none
  else none

/-- The `for_each` pass with `incr_exact` for `v[i]++`. -/
def for_each_exact (bound : Int) : List Nat → vector_t → Option vector_t
  | [], v => some v
  | i :: r, v =>
    match incr_exact bound v i with
    | some v' => for_each_exact bound r v'
    | none => none

/-- The merge loop in exact integer arithmetic, with a check: the result is
`none` when a sum `a[i] + b[i]` leaves `[0, bound]`. -/
def merge_loop_exact (bound : Int) (b : vector_t) : Nat → Nat → vector_t → Option vector_t
  | 0, _, a => some a
  | k + 1, i, a =>
    if h : i < a.length ∧ i < b.length then
      if 0 ≤ a[i] + b[i] ∧ a[i] + b[i] ≤ bound then
        merge_loop_exact bound b k (i + 1) (a.set i (a[i] + b[i]))
      else none
    else none

/-- The reduction lambda with `merge_loop_exact` for its loop. -/
def merge_exact (bound : Int) (nb : Nat) (a b : vector_t) : Option vector_t :=
  merge_loop_exact bound b nb 0 a

/-- Evaluation of a schedule with the exact, checked body and reduction. -/
def reduce_exact (bound : Int) (nb : Nat) : Schedule → List Nat → vector_t → Option vector_t
  | .leaf, r, v => for_each_exact bound r v
  | .seq k l rt, r, v =>
    match reduce_exact bound nb l (r.take k) v with
    | some v' => reduce_exact bound nb rt (r.drop k) v'
    | none => none
  | .fork k l rt, r, v =>
    match reduce_exact bound nb l (r.take k) v,
      reduce_exact bound nb rt (r.drop k) (identity nb) with
    | some a, some b => merge_exact bound nb a b
    | _, _ => none

/-- The serial pass in exact, checked arithmetic. -/
def hist_exact (bound : Int) (nb : Nat) (img : List Nat) : Option vector_t :=
  for_each_exact bound img (identity nb)

/-- The parallel reduction in exact, checked arithmetic. -/
def hist_p_exact (bound : Int) (nb : Nat) (t : Schedule) (img : List Nat) : Option vector_t :=
  reduce_exact bound nb t img (identity nb)

/-! ## The distribution -/

/-- Lower parameter of `std::uniform_int_distribution<> uniform{0,num_bins}`. -/
def uniform_a : Int := 0

/-- Upper parameter of `std::uniform_int_distribution<> uniform{0,num_bins}`. -/
def uniform_b : Int := num_bins

/-- The values a call `uniform(mte)` can return: by the contract of
`std::uniform_int_distribution`, the closed interval from `a` to `b`. -/
def IsDraw (d : Int) : Prop := uniform_a ≤ d ∧ d ≤ uniform_b

/-! ## 32-bit arithmetic -/

theorem wrap32_add_left (a b : Int) : wrap32 (wrap32 a + b) = wrap32 (a + b) := by
  unfold wrap32; omega

theorem wrap32_add_right (a b : Int) : wrap32 (a + wrap32 b) = wrap32 (a + b) := by
  unfold wrap32; omega

theorem wrap32_of_int {c : Int} (h : -2147483648 ≤ c ∧ c ≤ 2147483647) : wrap32 c = c := by
  unfold wrap32; omega

theorem wrap32_is_int (c : Int) : -2147483648 ≤ wrap32 c ∧ wrap32 c ≤ 2147483647 := by
  unfold wrap32; omega

/-! ## Vectors -/

theorem getD_of_lt (v : vector_t) {j : Nat} (hj : j < v.length) : v.getD j 0 = v[j] := by
  simp [List.getD_eq_getElem?_getD, List.getElem?_eq_getElem hj]

theorem getD_mem (v : vector_t) {j : Nat} (hj : j < v.length) : v.getD j 0 ∈ v := by
  rw [getD_of_lt v hj]; exact List.getElem_mem hj

theorem ext_getD {a b : vector_t} (hl : a.length = b.length)
    (h : ∀ j, j < a.length → a.getD j 0 = b.getD j 0) : a = b := by
  apply List.ext_getElem hl
  intro j h1 h2
  have := h j h1
  rwa [getD_of_lt a h1, getD_of_lt b h2] at this

theorem getD_set (v : vector_t) (i j : Nat) (c : Int) (hi : i < v.length) :
    (v.set i c).getD j 0 = if i = j then c else v.getD j 0 := by
  simp only [List.getD_eq_getElem?_getD, List.getElem?_set]
  split
  · simp [hi]
  · rfl

theorem isIntVec_identity (nb : Nat) : IsIntVec (identity nb) := by
  intro c hc
  have := List.eq_of_mem_replicate hc
  omega

theorem isIntVec_set {v : vector_t} (hv : IsIntVec v) (i : Nat) (c : Int) :
    IsIntVec (v.set i (wrap32 c)) := by
  intro x hx
  rcases List.mem_or_eq_of_mem_set hx with h | h
  · exact hv x h
  · rw [h]; exact wrap32_is_int c

/-! ## The body lambda in closed form -/

theorem tally_length (r : List Nat) (v : vector_t) : (tally r v).length = v.length := by
  simp [tally]

theorem tally_getD (r : List Nat) (v : vector_t) {j : Nat} (hj : j < v.length) :
    (tally r v).getD j 0 = wrap32 (v.getD j 0 + (r.count j : Int)) := by
  have h : j < (tally r v).length := by rw [tally_length]; exact hj
  rw [getD_of_lt _ h]
  simp [tally]

theorem isIntVec_tally (r : List Nat) (v : vector_t) : IsIntVec (tally r v) := by
  intro c hc
  simp only [tally, List.mem_map] at hc
  obtain ⟨j, _, rfl⟩ := hc
  exact wrap32_is_int _

theorem tally_nil {v : vector_t} (hv : IsIntVec v) : tally [] v = v := by
  apply ext_getD (tally_length _ _)
  intro j hj
  rw [tally_length] at hj
  rw [tally_getD _ _ hj]
  simpa using wrap32_of_int (hv _ (getD_mem v hj))

theorem for_each_eq_tally (r : List Nat) : ∀ (v : vector_t), (∀ x ∈ r, x < v.length) →
    IsIntVec v → for_each r v = some (tally r v) := by
  induction r with
  | nil => intro v _ hv; simp [for_each, tally_nil hv]
  | cons x r ih =>
    intro v hr hv
    have hx : x < v.length := hr x (List.mem_cons_self _ _)
    have hlen : (v.set x (wrap32 (v[x] + 1))).length = v.length := List.length_set _ _ _
    have h1 := ih (v.set x (wrap32 (v[x] + 1)))
      (by intro y hy; rw [hlen]; exact hr y (List.mem_cons_of_mem _ hy))
      (isIntVec_set hv _ _)
    simp only [for_each, incr, dif_pos hx, h1]
    congr 1
    apply ext_getD (by simp [tally_length])
    intro j hj
    rw [tally_length, hlen] at hj
    rw [tally_getD _ _ (by rw [hlen]; exact hj), tally_getD _ _ hj, getD_set _ _ _ _ hx,
      List.count_cons]
    by_cases hxj : x = j
    · subst hxj
      simp only [if_true, beq_self_eq_true, getD_of_lt v hx]
      rw [wrap32_add_left]
      congr 1
      push_cast
      ring
    · have : (x == j) = false := by simpa using hxj
      simp [hxj, this]

/-! ## The reduction lambda in closed form -/

theorem merge_loop_spec (b : vector_t) : ∀ (k i : Nat) (a : vector_t),
    i + k ≤ a.length → i + k ≤ b.length →
    ∃ a', merge_loop b k i a = some a' ∧ a'.length = a.length ∧
      ∀ j, a'.getD j 0 =
        if i ≤ j ∧ j < i + k then wrap32 (a.getD j 0 + b.getD j 0) else a.getD j 0 := by
  intro k
  induction k with
  | zero =>
    intro i a _ _
    refine ⟨a, rfl, rfl, ?_⟩
    intro j
    have : ¬ (i ≤ j ∧ j < i + 0) := by omega
    rw [if_neg this]
  | succ k ih =>
    intro i a ha hb
    have hia : i < a.length := by omega
    have hib : i < b.length := by omega
    have hlen : (a.set i (wrap32 (a[i] + b[i]))).length = a.length := List.length_set _ _ _
    obtain ⟨a', h1, h2, h3⟩ := ih (i + 1) (a.set i (wrap32 (a[i] + b[i])))
      (by rw [hlen]; omega) (by omega)
    refine ⟨a', ?_, by rw [h2, hlen], ?_⟩
    · simp only [merge_loop, dif_pos (And.intro hia hib), h1]
    · intro j
      rw [h3 j, getD_set _ _ _ _ hia]
      by_cases hij : i = j
      · subst hij
        have c1 : ¬ (i + 1 ≤ i ∧ i < i + 1 + k) := by omega
        have c2 : i ≤ i ∧ i < i + (k + 1) := by omega
        simp only [c1, c2, if_true, if_false, and_self, getD_of_lt a hia, getD_of_lt b hib]
      · by_cases hr : i + 1 ≤ j ∧ j < i + 1 + k
        · have c2 : i ≤ j ∧ j < i + (k + 1) := by omega
          simp only [hr, c2, hij, and_self, if_true, if_false]
        · have c2 : ¬ (i ≤ j ∧ j < i + (k + 1)) := by omega
          simp only [hr, c2, hij, if_false]

theorem addv_length (a b : vector_t) (h : a.length = b.length) : (addv a b).length = a.length := by
  simp [addv, h]

theorem addv_getD (a b : vector_t) (h : a.length = b.length) {j : Nat} (hj : j < a.length) :
    (addv a b).getD j 0 = wrap32 (a.getD j 0 + b.getD j 0) := by
  have hjb : j < b.length := h ▸ hj
  have h1 : j < (addv a b).length := by rw [addv_length a b h]; exact hj
  rw [getD_of_lt _ h1, getD_of_lt a hj, getD_of_lt b hjb]
  simp [addv]

theorem merge_eq_addv {nb : Nat} {a b : vector_t} (ha : a.length = nb) (hb : b.length = nb) :
    merge nb a b = some (addv a b) := by
  obtain ⟨a', h1, h2, h3⟩ := merge_loop_spec b nb 0 a (by omega) (by omega)
  rw [merge, h1]
  congr 1
  have hab : a.length = b.length := by rw [ha, hb]
  apply ext_getD (by rw [h2, addv_length a b hab])
  intro j hj
  rw [h2] at hj
  have c : 0 ≤ j ∧ j < 0 + nb := by omega
  rw [h3 j, addv_getD a b hab hj, if_pos c]

/-! ## Every schedule computes the tally -/

theorem tally_identity_length (nb : Nat) (r : List Nat) : (tally r (identity nb)).length = nb := by
  simp [tally_length, identity]

theorem reduce_eq_tally (nb : Nat) (t : Schedule) : ∀ (r : List Nat) (v : vector_t),
    v.length = nb → IsIntVec v → (∀ x ∈ r, x < nb) → reduce nb t r v = some (tally r v) := by
  induction t with
  | leaf =>
    intro r v hl hv hr
    exact for_each_eq_tally r v (by rw [hl]; exact hr) hv
  | seq k l rt ihl ihr =>
    intro r v hl hv hr
    have h1 := ihl (r.take k) v hl hv (fun x hx => hr x (List.mem_of_mem_take hx))
    have h2 := ihr (r.drop k) (tally (r.take k) v) (by rw [tally_length, hl])
      (isIntVec_tally _ _) (fun x hx => hr x (List.mem_of_mem_drop hx))
    simp only [reduce, h1, h2]
    congr 1
    apply ext_getD (by simp [tally_length])
    intro j hj
    simp only [tally_length] at hj
    rw [tally_getD _ _ (by rw [tally_length]; exact hj), tally_getD _ _ hj, tally_getD _ _ hj,
      wrap32_add_left]
    congr 1
    have : r.count j = (r.take k).count j + (r.drop k).count j := by
      rw [← List.count_append, List.take_append_drop]
    rw [this]; push_cast; ring
  | fork k l rt ihl ihr =>
    intro r v hl hv hr
    have h1 := ihl (r.take k) v hl hv (fun x hx => hr x (List.mem_of_mem_take hx))
    have h2 := ihr (r.drop k) (identity nb) (by simp [identity])
      (isIntVec_identity nb) (fun x hx => hr x (List.mem_of_mem_drop hx))
    have la : (tally (r.take k) v).length = nb := by rw [tally_length, hl]
    have lb : (tally (r.drop k) (identity nb)).length = nb := tally_identity_length nb _
    simp only [reduce, h1, h2, merge_eq_addv la lb]
    congr 1
    have lab : (tally (r.take k) v).length = (tally (r.drop k) (identity nb)).length := by
      rw [la, lb]
    apply ext_getD (by rw [addv_length _ _ lab, tally_length, tally_length])
    intro j hj
    rw [addv_length _ _ lab, tally_length] at hj
    have hj' : j < (identity nb).length := by simpa [identity, hl] using hj
    have hz : (identity nb).getD j 0 = 0 := by
      rw [getD_of_lt _ hj']; simp [identity]
    rw [addv_getD _ _ lab (by rw [tally_length]; exact hj), tally_getD _ _ hj, tally_getD _ _ hj,
      tally_getD _ _ hj', hz, wrap32_add_left, wrap32_add_right]
    congr 1
    have : r.count j = (r.take k).count j + (r.drop k).count j := by
      rw [← List.count_append, List.take_append_drop]
    rw [this]; push_cast; ring

theorem hist_eq_tally {nb : Nat} {s : List Nat} (hs : ∀ x ∈ s, x < nb) :
    hist nb s = some (tally s (identity nb)) :=
  for_each_eq_tally s (identity nb) (by simpa [identity] using hs) (isIntVec_identity nb)

theorem hist_p_eq_tally {nb : Nat} {s : List Nat} (t : Schedule) (hs : ∀ x ∈ s, x < nb) :
    hist_p nb t s = some (tally s (identity nb)) :=
  reduce_eq_tally nb t s (identity nb) (by simp [identity]) (isIntVec_identity nb) hs

theorem tally_identity_getD (nb : Nat) (s : List Nat) {b : Nat} (hb : b < nb) :
    (tally s (identity nb)).getD b 0 = wrap32 (s.count b : Int) := by
  have hb' : b < (identity nb).length := by simpa [identity] using hb
  rw [tally_getD _ _ hb', getD_of_lt _ hb']
  simp [identity]

/-! ## Counting lemmas -/

theorem getElem?_of_getD {v : vector_t} {j : Nat} (hj : j < v.length) {c : Int}
    (h : v.getD j 0 = c) : v[j]? = some c := by
  rw [List.getElem?_eq_getElem hj, ← getD_of_lt v hj, h]

theorem tally_identity (nb : Nat) (s : List Nat) :
    tally s (identity nb) = (List.range nb).map (fun j => wrap32 (s.count j : Int)) := by
  apply ext_getD (by simp [tally_length, identity])
  intro j hj
  rw [tally_identity_length] at hj
  rw [tally_identity_getD nb s hj, getD_of_lt _ (by simpa using hj)]
  simp

theorem sum_indicator (x : Nat) (c : Int) : ∀ nb : Nat,
    ((List.range nb).map (fun b => if x = b then c else 0)).sum
      = if x < nb then c else 0 := by
  intro nb
  induction nb with
  | zero => simp
  | succ m ih =>
    rw [List.range_succ, List.map_append, List.sum_append, ih]
    by_cases h1 : x < m
    · have h2 : x ≠ m := by omega
      have h3 : x < m + 1 := by omega
      simp [h1, h2, h3]
    · by_cases h2 : x = m
      · subst h2
        simp
      · have h3 : ¬ x < m + 1 := by omega
        simp [h1, h2, h3]

theorem sum_count_range (nb : Nat) (s : List Nat) (hs : ∀ x ∈ s, x < nb) :
    ((List.range nb).map (fun b => (s.count b : Int))).sum = (s.length : Int) := by
  induction s with
  | nil => simp
  | cons x s ih =>
    have hx : x < nb := hs x (List.mem_cons_self _ _)
    have ih1 := ih (fun y hy => hs y (List.mem_cons_of_mem _ hy))
    have hf : (fun b => (((x :: s).count b : Nat) : Int))
        = fun b => (s.count b : Int) + (if x = b then (1 : Int) else 0) := by
      funext b
      rw [List.count_cons]
      by_cases hxb : x = b
      · subst hxb; simp
      · have : (x == b) = false := by simpa using hxb
        simp [hxb, this]
    rw [hf, List.sum_map_add, ih1, sum_indicator x 1 nb, if_pos hx]
    simp

/-! ## Equivalence of the two passes -/

/-- Claim C1: for every sample sequence whose elements all lie in `[0, nb)` and
every schedule (every way of cutting the range into contiguous pieces, some
split off and joined by the reduction lambda, some processed in turn by the
same body; the one-piece schedule included), `parallel_reduce` returns a
histogram, and it is the histogram of the serial pass. -/
theorem parallel_eq_serial (nb : Nat) (s : List Nat) (t : Schedule)
    (hs : ∀ x ∈ s, x < nb) :
    hist_p nb t s = hist nb s ∧ ∃ h, hist nb s = some h ∧ h.length = nb := by
  refine ⟨?_, tally s (identity nb), hist_eq_tally hs, tally_identity_length nb s⟩
  rw [hist_p_eq_tally t hs, hist_eq_tally hs]

/-- Witness of C1 on the samples `[0,1,1,3]` with four bins, the range split
in the middle and the left half processed in two pieces by one body. -/
theorem parallel_eq_serial_witness :
    (∀ x ∈ [0, 1, 1, 3], x < 4) ∧
    (hist_p 4 (.fork 2 (.seq 1 .leaf .leaf) .leaf) [0, 1, 1, 3] = hist 4 [0, 1, 1, 3] ∧
      ∃ h, hist 4 [0, 1, 1, 3] = some h ∧ h.length = 4) :=
  ⟨by decide, parallel_eq_serial 4 [0, 1, 1, 3] (.fork 2 (.seq 1 .leaf .leaf) .leaf) (by decide)⟩

/-! ## The serial pass counts -/

/-- Claim C2, as stated, fails: on 2147483648 samples, all equal to 0, the
serial pass leaves -2147483648 in bin 0, not the number of samples equal to 0. -/
theorem hist_count_overflow :
    (∀ x ∈ List.replicate 2147483648 0, x < num_bins) ∧
    ∃ h, hist num_bins (List.replicate 2147483648 0) = some h ∧
      h[0]? = some (-2147483648) ∧
      h[0]? ≠ some (((List.replicate 2147483648 0).count 0 : Nat) : Int) := by
  have hs : ∀ x ∈ List.replicate 2147483648 0, x < num_bins := by
    intro x hx
    rw [List.eq_of_mem_replicate hx]
    decide
  have h0 : (tally (List.replicate 2147483648 0) (identity num_bins))[0]?
      = some (-2147483648) := by
    apply getElem?_of_getD (by rw [tally_identity_length]; decide)
    rw [tally_identity_getD _ _ (by decide : 0 < num_bins), List.count_replicate_self]
    decide
  refine ⟨hs, _, hist_eq_tally hs, h0, ?_⟩
  rw [h0, List.count_replicate_self]
  decide

/-- Claim C2, amended: for every sample sequence with all elements in `[0, nb)`
the serial pass returns a histogram of `nb` counters; counter `b` holds the
number of samples equal to `b` reduced to the 32-bit `int` range, which is that
number itself whenever it is at most 2147483647.  On `[0,1,1,3]` with four
bins the histogram is `[1,2,0,1]`. -/
theorem hist_counts (nb : Nat) (s : List Nat) (hs : ∀ x ∈ s, x < nb) :
    (∃ h, hist nb s = some h ∧ h.length = nb ∧
      ∀ b, b < nb → h[b]? = some (wrap32 (s.count b : Int)) ∧
        (s.count b ≤ 2147483647 → h[b]? = some (s.count b : Int))) ∧
    hist 4 [0, 1, 1, 3] = some [1, 2, 0, 1] := by
  refine ⟨⟨tally s (identity nb), hist_eq_tally hs, tally_identity_length nb s, ?_⟩, by decide⟩
  intro b hb
  have h1 : (tally s (identity nb))[b]? = some (wrap32 (s.count b : Int)) :=
    getElem?_of_getD (by rw [tally_identity_length]; exact hb) (tally_identity_getD nb s hb)
  refine ⟨h1, ?_⟩
  intro hc
  rw [h1, wrap32_of_int (by omega)]

/-- Witness of the amended C2 on the samples `[2,0,2]` with three bins. -/
theorem hist_counts_witness :
    (∀ x ∈ [2, 0, 2], x < 3) ∧
    ((∃ h, hist 3 [2, 0, 2] = some h ∧ h.length = 3 ∧
      ∀ b, b < 3 → h[b]? = some (wrap32 (([2, 0, 2] : List Nat).count b : Int)) ∧
        (([2, 0, 2] : List Nat).count b ≤ 2147483647 →
          h[b]? = some (([2, 0, 2] : List Nat).count b : Int))) ∧
    hist 4 [0, 1, 1, 3] = some [1, 2, 0, 1]) :=
  ⟨by decide, hist_counts 3 [2, 0, 2] (by decide)⟩

/-! ## Conservation -/

/-- Claim C3, as stated, fails: on 2147483648 samples, all equal to 1, the
counters of the serial histogram, which is also the histogram of the one-piece
parallel run, sum to -2147483648, not to the number of samples. -/
theorem conservation_overflow :
    (∀ x ∈ List.replicate 2147483648 1, x < num_bins) ∧
    ∃ h, hist num_bins (List.replicate 2147483648 1) = some h ∧
      hist_p num_bins .leaf (List.replicate 2147483648 1) = some h ∧
      h.sum = -2147483648 ∧
      h.sum ≠ ((List.replicate 2147483648 1).length : Int) := by
  have hs : ∀ x ∈ List.replicate 2147483648 1, x < num_bins := by
    intro x hx
    rw [List.eq_of_mem_replicate hx]
    decide
  have hf : (fun j : Nat => wrap32 ((List.replicate 2147483648 1).count j : Int))
      = fun j => if 1 = j then (-2147483648 : Int) else 0 := by
    funext j
    rw [List.count_replicate]
    by_cases h1 : 1 = j
    · subst h1; decide
    · have : ((1 : Nat) == j) = false := by simpa using h1
      rw [this, if_neg h1]; decide
  have hsum : (tally (List.replicate 2147483648 1) (identity num_bins)).sum = -2147483648 := by
    rw [tally_identity, hf, sum_indicator 1 (-2147483648) num_bins]
    decide
  refine ⟨hs, _, hist_eq_tally hs, hist_p_eq_tally .leaf hs, hsum, ?_⟩
  rw [hsum, List.length_replicate]
  decide

/-- Claim C3, amended: for every sample sequence of length `n` with all
elements in `[0, nb)` in which no value occurs more than 2147483647 times (so
for every such sequence with `n` at most 2147483647), the serial pass and the
parallel reduction under any schedule return the same histogram, and its `nb`
counters sum to `n`. -/
theorem conservation (nb : Nat) (s : List Nat) (t : Schedule) (hs : ∀ x ∈ s, x < nb)
    (hc : ∀ b, b < nb → s.count b ≤ 2147483647) :
    ∃ h, hist nb s = some h ∧ hist_p nb t s = some h ∧ h.length = nb ∧
      h.sum = (s.length : Int) := by
  refine ⟨tally s (identity nb), hist_eq_tally hs, hist_p_eq_tally t hs,
    tally_identity_length nb s, ?_⟩
  have hm : (List.range nb).map (fun j => wrap32 (s.count j : Int))
      = (List.range nb).map (fun j => (s.count j : Int)) := by
    apply List.map_congr_left
    intro b hb
    have := hc b (List.mem_range.mp hb)
    exact wrap32_of_int (by omega)
  rw [tally_identity, hm, sum_count_range nb s hs]

/-- Witness of the amended C3 on the samples `[3,3,0,2,3]` with four bins, the
range split after two samples. -/
theorem conservation_witness :
    (∀ x ∈ [3, 3, 0, 2, 3], x < 4) ∧
    (∀ b, b < 4 → ([3, 3, 0, 2, 3] : List Nat).count b ≤ 2147483647) ∧
    ∃ h, hist 4 [3, 3, 0, 2, 3] = some h ∧
      hist_p 4 (.fork 2 .leaf .leaf) [3, 3, 0, 2, 3] = some h ∧ h.length = 4 ∧
      h.sum = (([3, 3, 0, 2, 3] : List Nat).length : Int) :=
  ⟨by decide, by decide,
    conservation 4 [3, 3, 0, 2, 3] (.fork 2 .leaf .leaf) (by decide) (by decide)⟩

/-! ## The reduction lambda -/

/-- Claim C4, as stated, fails: merging the 256-counter histograms
`[2147483647, 0, ..., 0]` and `[1, 0, ..., 0]` leaves -2147483648 in bin 0,
not the sum 2147483648 of the two counters. -/
theorem merge_overflow :
    (2147483647 :: List.replicate 255 (0 : Int)).length = num_bins ∧
    (1 :: List.replicate 255 (0 : Int)).length = num_bins ∧
    IsIntVec (2147483647 :: List.replicate 255 0) ∧
    IsIntVec (1 :: List.replicate 255 0) ∧
    ∃ m, merge num_bins (2147483647 :: List.replicate 255 0) (1 :: List.replicate 255 0) = some m ∧
      m[0]? = some (-2147483648) ∧
      m[0]? ≠ some ((2147483647 :: List.replicate 255 (0 : Int)).getD 0 0
        + (1 :: List.replicate 255 (0 : Int)).getD 0 0) := by
  have la : (2147483647 :: List.replicate 255 (0 : Int)).length = num_bins := by
    rw [List.length_cons, List.length_replicate]; rfl
  have lb : (1 :: List.replicate 255 (0 : Int)).length = num_bins := by
    rw [List.length_cons, List.length_replicate]; rfl
  have va : IsIntVec (2147483647 :: List.replicate 255 0) := by
    intro c hc
    rcases List.mem_cons.mp hc with h | h
    · omega
    · have := List.eq_of_mem_replicate h
      omega
  have vb : IsIntVec (1 :: List.replicate 255 0) := by
    intro c hc
    rcases List.mem_cons.mp hc with h | h
    · omega
    · have := List.eq_of_mem_replicate h
      omega
  have h0 : (addv (2147483647 :: List.replicate 255 0) (1 :: List.replicate 255 0))[0]?
      = some (-2147483648) := by
    simp only [addv, List.zipWith_cons_cons, List.getElem?_cons_zero]
    decide
  refine ⟨la, lb, va, vb, _, merge_eq_addv la lb, h0, ?_⟩
  rw [h0]
  simp only [List.getD_cons_zero]
  decide

/-- Claim C4, amended: the merge of two histograms `a` and `b` of `nb` counters
returns a histogram of `nb` counters whose counter at every bin `j` is
`a[j] + b[j]` reduced to the 32-bit `int` range; it is `a[j] + b[j]` itself
whenever that sum lies between -2147483648 and 2147483647. -/
theorem merge_bins (nb : Nat) (a b : vector_t) (ha : a.length = nb) (hb : b.length = nb) :
    ∃ m, merge nb a b = some m ∧ m.length = nb ∧
      ∀ j, j < nb → m[j]? = some (wrap32 (a.getD j 0 + b.getD j 0)) ∧
        (-2147483648 ≤ a.getD j 0 + b.getD j 0 ∧ a.getD j 0 + b.getD j 0 ≤ 2147483647 →
          m[j]? = some (a.getD j 0 + b.getD j 0)) := by
  have hab : a.length = b.length := by rw [ha, hb]
  refine ⟨addv a b, merge_eq_addv ha hb, by rw [addv_length a b hab, ha], ?_⟩
  intro j hj
  have h1 : (addv a b)[j]? = some (wrap32 (a.getD j 0 + b.getD j 0)) :=
    getElem?_of_getD (by rw [addv_length a b hab, ha]; exact hj)
      (addv_getD a b hab (by rw [ha]; exact hj))
  refine ⟨h1, ?_⟩
  intro hr
  rw [h1, wrap32_of_int hr]

/-- Witness of the amended C4 on two histograms of three counters. -/
theorem merge_bins_witness :
    ([1, 2, 0] : vector_t).length = 3 ∧ ([4, 0, 7] : vector_t).length = 3 ∧
    ∃ m, merge 3 [1, 2, 0] [4, 0, 7] = some m ∧ m.length = 3 ∧
      ∀ j, j < 3 → m[j]? = some (wrap32 (([1, 2, 0] : vector_t).getD j 0
          + ([4, 0, 7] : vector_t).getD j 0)) ∧
        (-2147483648 ≤ ([1, 2, 0] : vector_t).getD j 0 + ([4, 0, 7] : vector_t).getD j 0 ∧
          ([1, 2, 0] : vector_t).getD j 0 + ([4, 0, 7] : vector_t).getD j 0 ≤ 2147483647 →
          m[j]? = some (([1, 2, 0] : vector_t).getD j 0 + ([4, 0, 7] : vector_t).getD j 0)) :=
  ⟨rfl, rfl, merge_bins 3 [1, 2, 0] [4, 0, 7] rfl rfl⟩

theorem addv_assoc (a b c : vector_t) (hab : a.length = b.length) (hbc : b.length = c.length) :
    addv (addv a b) c = addv a (addv b c) := by
  have l1 : (addv a b).length = c.length := by rw [addv_length a b hab, hab, hbc]
  have l2 : a.length = (addv b c).length := by rw [addv_length b c hbc, hab]
  apply ext_getD (by rw [addv_length _ _ l1, addv_length _ _ l2, addv_length a b hab])
  intro j hj
  rw [addv_length _ _ l1, addv_length a b hab] at hj
  have hjb : j < b.length := hab ▸ hj
  rw [addv_getD _ _ l1 (by rw [addv_length a b hab]; exact hj), addv_getD a b hab hj,
    addv_getD _ _ l2 hj, addv_getD b c hbc hjb, wrap32_add_left, wrap32_add_right, add_assoc]

theorem addv_comm (a b : vector_t) (hab : a.length = b.length) : addv a b = addv b a := by
  apply ext_getD (by rw [addv_length a b hab, addv_length b a hab.symm, hab])
  intro j hj
  rw [addv_length a b hab] at hj
  rw [addv_getD a b hab hj, addv_getD b a hab.symm (hab ▸ hj), add_comm]

/-- Claim C5: merge is associative: for any three histograms `a`, `b`, `c` of
`nb` counters all four merges return a histogram, and merging `a` with `b` and
the result with `c` gives the same histogram as merging `a` with the merge of
`b` and `c`. -/
theorem merge_assoc (nb : Nat) (a b c : vector_t) (ha : a.length = nb) (hb : b.length = nb)
    (hc : c.length = nb) :
    ∃ ab bc r, merge nb a b = some ab ∧ merge nb b c = some bc ∧
      merge nb ab c = some r ∧ merge nb a bc = some r := by
  have hab : a.length = b.length := by rw [ha, hb]
  have hbc : b.length = c.length := by rw [hb, hc]
  have l1 : (addv a b).length = nb := by rw [addv_length a b hab, ha]
  have l2 : (addv b c).length = nb := by rw [addv_length b c hbc, hb]
  refine ⟨addv a b, addv b c, addv (addv a b) c, merge_eq_addv ha hb, merge_eq_addv hb hc,
    merge_eq_addv l1 hc, ?_⟩
  rw [merge_eq_addv ha l2, addv_assoc a b c hab hbc]

/-- Witness of C5 on three histograms of two counters, one addition leaving the
`int` range. -/
theorem merge_assoc_witness :
    ([2147483647, 1] : vector_t).length = 2 ∧ ([1, 2] : vector_t).length = 2 ∧
    ([-5, 3] : vector_t).length = 2 ∧
    ∃ ab bc r, merge 2 [2147483647, 1] [1, 2] = some ab ∧ merge 2 [1, 2] [-5, 3] = some bc ∧
      merge 2 ab [-5, 3] = some r ∧ merge 2 [2147483647, 1] bc = some r :=
  ⟨rfl, rfl, rfl, merge_assoc 2 [2147483647, 1] [1, 2] [-5, 3] rfl rfl rfl⟩

/-- Claim C6: merge is commutative: for any two histograms `a` and `b` of `nb`
counters, merging `a` with `b` and merging `b` with `a` return the same
histogram. -/
theorem merge_comm (nb : Nat) (a b : vector_t) (ha : a.length = nb) (hb : b.length = nb) :
    merge nb a b = merge nb b a ∧ ∃ m, merge nb a b = some m := by
  have hab : a.length = b.length := by rw [ha, hb]
  refine ⟨?_, addv a b, merge_eq_addv ha hb⟩
  rw [merge_eq_addv ha hb, merge_eq_addv hb ha, addv_comm a b hab]

/-- Witness of C6 on two histograms of three counters. -/
theorem merge_comm_witness :
    ([1, 2, 0] : vector_t).length = 3 ∧ ([4, 0, 7] : vector_t).length = 3 ∧
    merge 3 [1, 2, 0] [4, 0, 7] = merge 3 [4, 0, 7] [1, 2, 0] ∧
    ∃ m, merge 3 [1, 2, 0] [4, 0, 7] = some m :=
  ⟨rfl, rfl, merge_comm 3 [1, 2, 0] [4, 0, 7] rfl rfl⟩

theorem addv_identity (nb : Nat) (a : vector_t) (ha : a.length = nb) (hv : IsIntVec a) :
    addv a (identity nb) = a := by
  have hab : a.length = (identity nb).length := by simp [identity, ha]
  apply ext_getD (addv_length a _ hab)
  intro j hj
  rw [addv_length a _ hab] at hj
  have hz : (identity nb).getD j 0 = 0 := by
    rw [getD_of_lt _ (hab ▸ hj)]; simp [identity]
  rw [addv_getD a _ hab hj, hz, add_zero, wrap32_of_int (hv _ (getD_mem a hj))]

/-- Claim C7: the identity argument `vector_t(num_bins)` is the histogram of
`nb` counters all equal to zero, and for every histogram `a` of `nb` counters
(of type `int`) merging `a` with it, on either side, returns `a`. -/
theorem merge_identity (nb : Nat) (a : vector_t) (ha : a.length = nb) (hv : IsIntVec a) :
    (identity nb).length = nb ∧ (∀ c ∈ identity nb, c = 0) ∧
    merge nb a (identity nb) = some a ∧ merge nb (identity nb) a = some a := by
  have hi : (identity nb).length = nb := by simp [identity]
  refine ⟨hi, fun c hc => List.eq_of_mem_replicate hc, ?_, ?_⟩
  · rw [merge_eq_addv ha hi, addv_identity nb a ha hv]
  · rw [merge_eq_addv hi ha, addv_comm _ _ (by rw [hi, ha]), addv_identity nb a ha hv]

/-- Witness of C7 on a histogram of three counters. -/
theorem merge_identity_witness :
    ([5, 0, 2147483647] : vector_t).length = 3 ∧ IsIntVec [5, 0, 2147483647] ∧
    (identity 3).length = 3 ∧ (∀ c ∈ identity 3, c = 0) ∧
    merge 3 [5, 0, 2147483647] (identity 3) = some [5, 0, 2147483647] ∧
    merge 3 (identity 3) [5, 0, 2147483647] = some [5, 0, 2147483647] :=
  ⟨rfl, by unfold IsIntVec; decide,
    merge_identity 3 [5, 0, 2147483647] rfl (by unfold IsIntVec; decide)⟩

/-! ## Order independence -/

theorem tally_perm {s s' : List Nat} (hp : s.Perm s') (v : vector_t) : tally s' v = tally s v := by
  unfold tally
  apply List.map_congr_left
  intro j _
  rw [hp.count_eq j]

/-- Claim C8: for every sample sequence `s` with all elements in `[0, nb)` and
every permutation `s'` of `s`, the serial pass returns the same histogram on
`s'` as on `s`, and so does the parallel reduction, whatever the two
schedules. -/
theorem order_independence (nb : Nat) (s s' : List Nat) (t t' : Schedule) (hp : s.Perm s')
    (hs : ∀ x ∈ s, x < nb) :
    hist nb s' = hist nb s ∧ hist_p nb t' s' = hist_p nb t s ∧
      ∃ h, hist nb s = some h ∧ h.length = nb := by
  have hs' : ∀ x ∈ s', x < nb := fun x hx => hs x (hp.mem_iff.mpr hx)
  refine ⟨?_, ?_, tally s (identity nb), hist_eq_tally hs, tally_identity_length nb s⟩
  · rw [hist_eq_tally hs', hist_eq_tally hs, tally_perm hp]
  · rw [hist_p_eq_tally t' hs', hist_p_eq_tally t hs, tally_perm hp]

/-- Witness of C8 on `[0,1,1,3]` and its rearrangement `[3,1,0,1]`, four bins. -/
theorem order_independence_witness :
    List.Perm [0, 1, 1, 3] [3, 1, 0, 1] ∧ (∀ x ∈ [0, 1, 1, 3], x < 4) ∧
    hist 4 [3, 1, 0, 1] = hist 4 [0, 1, 1, 3] ∧
    hist_p 4 (.fork 1 .leaf .leaf) [3, 1, 0, 1] = hist_p 4 (.fork 2 .leaf .leaf) [0, 1, 1, 3] ∧
    ∃ h, hist 4 [0, 1, 1, 3] = some h ∧ h.length = 4 :=
  ⟨by decide, by decide,
    order_independence 4 [0, 1, 1, 3] [3, 1, 0, 1] (.fork 2 .leaf .leaf) (.fork 1 .leaf .leaf)
      (by decide) (by decide)⟩

/-! ## The empty image -/

/-- Claim C9: on the empty sample sequence the serial pass and the parallel
reduction, under every schedule, return the identity histogram: `nb` counters
all equal to zero, `[0,0,0,0]` for four bins. -/
theorem empty_image (nb : Nat) (t : Schedule) :
    hist nb [] = some (identity nb) ∧ hist_p nb t [] = some (identity nb) ∧
    (identity nb).length = nb ∧ (∀ c ∈ identity nb, c = 0) ∧
    hist 4 [] = some [0, 0, 0, 0] ∧ hist_p 4 t [] = some [0, 0, 0, 0] := by
  have hp : ∀ m : Nat, hist_p m t [] = some (identity m) := by
    intro m
    rw [hist_p_eq_tally t (by intro x hx; cases hx), tally_nil (isIntVec_identity m)]
  exact ⟨rfl, hp nb, by simp [identity], fun c hc => List.eq_of_mem_replicate hc, rfl, hp 4⟩

/-! ## The sample source -/

theorem to_uint8_lt (d : Int) : to_uint8 d < 256 := by
  unfold to_uint8; omega

theorem generate_n_spec {σ : Type} (uniform : σ → Int × σ) : ∀ (count : Nat) (mte : σ)
    (img : List Nat), (generate_n uniform count mte img).1.length = img.length + count ∧
      ((∀ x ∈ img, x < 256) → ∀ x ∈ (generate_n uniform count mte img).1, x < 256) := by
  intro count
  induction count with
  | zero => intro mte img; exact ⟨rfl, fun h => h⟩
  | succ k ih =>
    intro mte img
    obtain ⟨h1, h2⟩ := ih (uniform mte).2 (img ++ [to_uint8 (uniform mte).1])
    refine ⟨?_, ?_⟩
    · simp only [generate_n]
      rw [h1, List.length_append, List.length_singleton]
      omega
    · intro himg
      simp only [generate_n]
      apply h2
      intro x hx
      rcases List.mem_append.mp hx with h | h
      · exact himg x h
      · rw [List.mem_singleton.mp h]; exact to_uint8_lt _

/-- Claim C10: whatever the generator and its seed, the image filled by
`generate_n` holds exactly as many samples as were requested, `n` in `main`,
and every stored sample is at least 0 and strictly less than
`num_bins` = 256. -/
theorem image_samples {σ : Type} (uniform : σ → Int × σ) (mte : σ) (count : Nat) :
    (image uniform count mte).length = count ∧
    (image uniform n mte).length = n ∧
    (∀ x ∈ image uniform count mte, 0 ≤ x ∧ x < num_bins) ∧
    (∀ x ∈ image uniform n mte, 0 ≤ x ∧ x < num_bins) ∧ num_bins = 256 := by
  have hl : ∀ c : Nat, (image uniform c mte).length = c := by
    intro c
    have := (generate_n_spec uniform c mte []).1
    simpa [image] using this
  have hb : ∀ c : Nat, ∀ x ∈ image uniform c mte, 0 ≤ x ∧ x < num_bins := by
    intro c x hx
    refine ⟨Nat.zero_le x, ?_⟩
    exact (generate_n_spec uniform c mte []).2 (by intro y hy; cases hy) x hx
  exact ⟨hl count, hl n, hb count, hb n, rfl⟩

/-! ## The comparator and the report -/

theorem mismatch_iff (nb : Nat) (a b : vector_t) (ha : a.length = nb) (hb : b.length = nb) :
    mismatch a b = true ↔ ∃ j, j < nb ∧ a.getD j 0 ≠ b.getD j 0 := by
  unfold mismatch
  rw [bne_iff_ne]
  constructor
  · intro hne
    by_contra hall
    apply hne
    apply ext_getD (by rw [ha, hb])
    intro j hj
    by_contra hj2
    exact hall ⟨j, by rw [← ha]; exact hj, hj2⟩
  · rintro ⟨j, _, hj⟩ heq
    exact hj (by rw [heq])

theorem not_mem_timing_report {T : Type} (div : T → T → T) (ts tp : T) (x : Item T) :
    (Stream.cerr, x) ∉ timing_report div ts tp := by
  simp [timing_report]

/-- Claim C11: for a serial and a parallel histogram of `nb` counters each, the
warning 'Parallel computation failed!!' is written to `std::cerr` if and only
if the two histograms differ in at least one of the `nb` positions; when all
counters match pairwise nothing is written beyond the timing line. -/
theorem report_mismatch {T : Type} (div : T → T → T) (ts tp : T) (nb : Nat) (h hp : vector_t)
    (hh : h.length = nb) (hhp : hp.length = nb) :
    ((Stream.cerr, Item.text "Parallel computation failed!!") ∈ (report div ts tp h hp).1 ↔
      ∃ j, j < nb ∧ h.getD j 0 ≠ hp.getD j 0) ∧
    ((∀ j, j < nb → h.getD j 0 = hp.getD j 0) →
      (report div ts tp h hp).1 = timing_report div ts tp) := by
  have key := mismatch_iff nb h hp hh hhp
  constructor
  · rw [← key]
    unfold report
    by_cases hm : mismatch h hp = true
    · simp [hm, warning]
    · simp [hm, not_mem_timing_report]
  · intro hall
    have hm : ¬ mismatch h hp = true := by
      rw [key]
      rintro ⟨j, hj, hne⟩
      exact hne (hall j hj)
    simp [report, hm]

/-- Witness of C11 on two histograms of three counters that differ in bin 1. -/
theorem report_mismatch_witness :
    ([4, 1, 0] : vector_t).length = 3 ∧ ([4, 2, 0] : vector_t).length = 3 ∧
    (((Stream.cerr, Item.text "Parallel computation failed!!")
        ∈ (report (fun a b : Nat => a / b) 6 2 [4, 1, 0] [4, 2, 0]).1 ↔
      ∃ j, j < 3 ∧ ([4, 1, 0] : vector_t).getD j 0 ≠ ([4, 2, 0] : vector_t).getD j 0) ∧
    ((∀ j, j < 3 → ([4, 1, 0] : vector_t).getD j 0 = ([4, 2, 0] : vector_t).getD j 0) →
      (report (fun a b : Nat => a / b) 6 2 [4, 1, 0] [4, 2, 0]).1
        = timing_report (fun a b : Nat => a / b) 6 2)) :=
  ⟨rfl, rfl, report_mismatch (fun a b : Nat => a / b) 6 2 3 [4, 1, 0] [4, 2, 0] rfl rfl⟩

/-- Claim C12: a mismatch is not fatal: whether or not the two histograms are
equal, the insertions of the Serial / Parallel / Speed-up line come first and
unchanged, the exit status is 0, and a mismatch only appends the warning on
`std::cerr` after them. -/
theorem report_nonfatal {T : Type} (div : T → T → T) (ts tp : T) (h hp : vector_t) :
    (report div ts tp h hp).2 = 0 ∧
    (report div ts tp h hp).1 =
      timing_report div ts tp ++ (if mismatch h hp then warning else []) ∧
    (∀ x ∈ timing_report div ts tp, x.1 = Stream.cout) ∧
    timing_report div ts tp =
      [(.cout, .text "Serial: "), (.cout, .value ts), (.cout, .text ", "),
       (.cout, .text "Parallel: "), (.cout, .value tp), (.cout, .text ", "),
       (.cout, .text "Speed-up: "), (.cout, .value (div ts tp)), (.cout, .endl)] := by
  refine ⟨rfl, ?_, ?_, rfl⟩
  · unfold report
    by_cases hm : mismatch h hp = true
    · simp [hm]
    · simp [hm]
  · intro x hx
    simp only [timing_report, List.mem_cons, List.mem_singleton, List.not_mem_nil, or_false] at hx
    rcases hx with h | h | h | h | h | h | h | h | h <;> rw [h]

/-! ## Every value once -/

theorem all_lt_of_counts (nb : Nat) (s : List Nat) (hl : s.length = nb)
    (hc : ∀ v, v < nb → s.count v = 1) : ∀ x ∈ s, x < nb := by
  have hf : ∀ x ∈ s.filter (fun x => decide (x < nb)), x < nb := by
    intro x hx
    simpa using (List.mem_filter.mp hx).2
  have hsum := sum_count_range nb (s.filter (fun x => decide (x < nb))) hf
  have hm : (List.range nb).map (fun b => ((s.filter (fun x => decide (x < nb))).count b : Int))
      = (List.range nb).map (fun _ => (1 : Int)) := by
    apply List.map_congr_left
    intro b hb
    have hb' : b < nb := List.mem_range.mp hb
    rw [List.count_filter (by simpa using hb'), hc b hb']
    rfl
  rw [hm, List.map_const', List.length_range, List.sum_replicate] at hsum
  have hlen : (s.filter (fun x => decide (x < nb))).length = s.length := by
    have : (nb : Int) = ((s.filter (fun x => decide (x < nb))).length : Int) := by
      simpa using hsum
    omega
  intro x hx
  simpa using List.filter_length_eq_length.mp hlen x hx

theorem tally_all_ones (nb : Nat) (s : List Nat) (hc : ∀ v, v < nb → s.count v = 1) :
    tally s (identity nb) = List.replicate nb 1 := by
  apply ext_getD (by rw [tally_identity_length, List.length_replicate])
  intro j hj
  rw [tally_identity_length] at hj
  rw [tally_identity_getD nb s hj, hc j hj,
    getD_of_lt _ (by rw [List.length_replicate]; exact hj), List.getElem_replicate]
  decide

/-- Claim C13: for every sequence of 256 samples that holds each value 0..255
exactly once, in any order, the serial pass and the parallel reduction under
every schedule return, with 256 bins, the histogram whose 256 counters all
equal 1. -/
theorem each_value_once (s : List Nat) (t : Schedule) (hl : s.length = 256)
    (hc : ∀ v, v < 256 → s.count v = 1) :
    hist num_bins s = some (List.replicate 256 1) ∧
    hist_p num_bins t s = some (List.replicate 256 1) := by
  have hs : ∀ x ∈ s, x < num_bins := all_lt_of_counts 256 s hl hc
  have ht : tally s (identity num_bins) = List.replicate 256 1 := tally_all_ones 256 s hc
  exact ⟨by rw [hist_eq_tally hs, ht], by rw [hist_p_eq_tally t hs, ht]⟩

/-- Witness of C13 on the samples 255, 254, ..., 0, the range split after 100
samples. -/
theorem each_value_once_witness :
    (List.range 256).reverse.length = 256 ∧
    (∀ v, v < 256 → (List.range 256).reverse.count v = 1) ∧
    hist num_bins (List.range 256).reverse = some (List.replicate 256 1) ∧
    hist_p num_bins (.fork 100 .leaf .leaf) (List.range 256).reverse
      = some (List.replicate 256 1) :=
  have hl : (List.range 256).reverse.length = 256 := by
    rw [List.length_reverse, List.length_range]
  have hc : ∀ v, v < 256 → (List.range 256).reverse.count v = 1 := fun v hv => by
    rw [List.count_reverse]
    exact List.count_eq_one_of_mem (List.nodup_range 256) (List.mem_range.mpr hv)
  ⟨hl, hc, each_value_once (List.range 256).reverse (.fork 100 .leaf .leaf) hl hc⟩

/-! ## Bounds and shapes for arbitrary accumulators -/

theorem for_each_some (r : List Nat) : ∀ (v : vector_t), (∀ x ∈ r, x < v.length) →
    ∃ w, for_each r v = some w ∧ w.length = v.length := by
  induction r with
  | nil => intro v _; exact ⟨v, rfl, rfl⟩
  | cons x r ih =>
    intro v hr
    have hx : x < v.length := hr x (List.mem_cons_self _ _)
    have hlen : (v.set x (wrap32 (v[x] + 1))).length = v.length := List.length_set _ _ _
    obtain ⟨w, h1, h2⟩ := ih (v.set x (wrap32 (v[x] + 1)))
      (by intro y hy; rw [hlen]; exact hr y (List.mem_cons_of_mem _ hy))
    refine ⟨w, ?_, by rw [h2, hlen]⟩
    simp only [for_each, incr, dif_pos hx, h1]

theorem for_each_append (r1 r2 : List Nat) : ∀ (v : vector_t),
    for_each (r1 ++ r2) v =
      match for_each r1 v with
      | some a => for_each r2 a
      | none => none := by
  induction r1 with
  | nil => intro v; rfl
  | cons x r1 ih =>
    intro v
    simp only [List.cons_append, for_each]
    cases incr v x with
    | none => rfl
    | some u => exact ih u

theorem reduce_some (nb : Nat) (t : Schedule) : ∀ (r : List Nat) (v : vector_t),
    v.length = nb → (∀ x ∈ r, x < nb) → ∃ w, reduce nb t r v = some w ∧ w.length = nb := by
  induction t with
  | leaf =>
    intro r v hl hr
    obtain ⟨w, h1, h2⟩ := for_each_some r v (by rw [hl]; exact hr)
    exact ⟨w, h1, by rw [h2, hl]⟩
  | seq k l rt ihl ihr =>
    intro r v hl hr
    obtain ⟨a, h1, h2⟩ := ihl (r.take k) v hl (fun x hx => hr x (List.mem_of_mem_take hx))
    obtain ⟨b, h3, h4⟩ := ihr (r.drop k) a h2 (fun x hx => hr x (List.mem_of_mem_drop hx))
    exact ⟨b, by simp only [reduce, h1, h3], h4⟩
  | fork k l rt ihl ihr =>
    intro r v hl hr
    obtain ⟨a, h1, h2⟩ := ihl (r.take k) v hl (fun x hx => hr x (List.mem_of_mem_take hx))
    obtain ⟨b, h3, h4⟩ := ihr (r.drop k) (identity nb) (by simp [identity])
      (fun x hx => hr x (List.mem_of_mem_drop hx))
    refine ⟨addv a b, by simp only [reduce, h1, h3, merge_eq_addv h2 h4], ?_⟩
    rw [addv_length a b (by rw [h2, h4]), h2]

/-! ## Accumulator reuse -/

/-- Claim C15: for every accumulator `v` of `nb` counters (of type `int`) and
every sub-range `r` with samples in `[0, nb)`, the body lambda applied to
`(r, v)` returns the merge of `v` with the body lambda's result on
`(r, identity)`; and processing `r1` and then `r2` with the accumulator carried
over returns what the body lambda returns on the concatenated range, from the
identity as from any accumulator of `nb` counters. -/
theorem accumulator_reuse (nb : Nat) (v u : vector_t) (r r1 r2 : List Nat) (hv : v.length = nb)
    (hi : IsIntVec v) (hu : u.length = nb) (hr : ∀ x ∈ r, x < nb) (hr1 : ∀ x ∈ r1, x < nb)
    (hr2 : ∀ x ∈ r2, x < nb) :
    (∃ w p, body r v = some w ∧ body r (identity nb) = some p ∧ merge nb v p = some w) ∧
    (∃ a b, body r1 (identity nb) = some a ∧ body r2 a = some b ∧
      body (r1 ++ r2) (identity nb) = some b) ∧
    (∃ a b, body r1 u = some a ∧ body r2 a = some b ∧ body (r1 ++ r2) u = some b) := by
  have carried : ∀ x : vector_t, x.length = nb →
      ∃ a b, body r1 x = some a ∧ body r2 a = some b ∧ body (r1 ++ r2) x = some b := by
    intro x hx
    obtain ⟨a, h1, h2⟩ := for_each_some r1 x (by rw [hx]; exact hr1)
    obtain ⟨b, h3, _⟩ := for_each_some r2 a (by rw [h2, hx]; exact hr2)
    refine ⟨a, b, h1, h3, ?_⟩
    unfold body
    rw [for_each_append, h1]
    exact h3
  refine ⟨⟨tally r v, tally r (identity nb), ?_, ?_, ?_⟩, carried (identity nb) (by simp [identity]),
    carried u hu⟩
  · exact for_each_eq_tally r v (by rw [hv]; exact hr) hi
  · exact hist_eq_tally hr
  · have lp : (tally r (identity nb)).length = nb := tally_identity_length nb r
    have hvp : v.length = (tally r (identity nb)).length := by rw [hv, lp]
    rw [merge_eq_addv hv lp]
    congr 1
    apply ext_getD (by rw [addv_length _ _ hvp, tally_length])
    intro j hj
    rw [addv_length _ _ hvp] at hj
    rw [addv_getD _ _ hvp hj, tally_identity_getD nb r (by rw [← hv]; exact hj),
      tally_getD _ _ hj, wrap32_add_right]

/-- Witness of C15 with four bins: accumulator `[5,0,2,1]`, sub-range `[3,3,0]`,
adjacent sub-ranges `[0,1]` and `[1,3]`. -/
theorem accumulator_reuse_witness :
    ([5, 0, 2, 1] : vector_t).length = 4 ∧ IsIntVec [5, 0, 2, 1] ∧
    ([7, 7, 7, 7] : vector_t).length = 4 ∧
    (∀ x ∈ [3, 3, 0], x < 4) ∧ (∀ x ∈ [0, 1], x < 4) ∧ (∀ x ∈ [1, 3], x < 4) ∧
    (∃ w p, body [3, 3, 0] [5, 0, 2, 1] = some w ∧ body [3, 3, 0] (identity 4) = some p ∧
      merge 4 [5, 0, 2, 1] p = some w) ∧
    (∃ a b, body [0, 1] (identity 4) = some a ∧ body [1, 3] a = some b ∧
      body ([0, 1] ++ [1, 3]) (identity 4) = some b) ∧
    (∃ a b, body [0, 1] [7, 7, 7, 7] = some a ∧ body [1, 3] a = some b ∧
      body ([0, 1] ++ [1, 3]) [7, 7, 7, 7] = some b) :=
  ⟨rfl, by unfold IsIntVec; decide, rfl, by decide, by decide, by decide,
    accumulator_reuse 4 [5, 0, 2, 1] [7, 7, 7, 7] [3, 3, 0] [0, 1] [1, 3] rfl
      (by unfold IsIntVec; decide) rfl (by decide) (by decide) (by decide)⟩

/-! ## Index safety -/

/-- Claim C16: with 256 bins, for every image content (every sequence of
8-bit values) and every accumulator of `num_bins` counters, the pass returns a
histogram, and each access `v[i]` it makes is within the bounds of the vector
it indexes: whenever the pass has reached a sample `x`, the vector built so far
has more than `x` counters.  This holds for the serial pass (accumulator
`hist`, all zeros) and for the body lambda alike. -/
theorem index_safety (img : List Nat) (v : vector_t) (himg : ∀ x ∈ img, x < 256)
    (hv : v.length = num_bins) :
    (∃ h, hist num_bins img = some h) ∧ (∃ w, body img v = some w) ∧
    (∀ pre x post, img = pre ++ x :: post →
      ∃ u, for_each pre (identity num_bins) = some u ∧ x < u.length) ∧
    (∀ pre x post, img = pre ++ x :: post → ∃ u, for_each pre v = some u ∧ x < u.length) := by
  have access : ∀ a : vector_t, a.length = num_bins → ∀ pre x post, img = pre ++ x :: post →
      ∃ u, for_each pre a = some u ∧ x < u.length := by
    intro a ha pre x post himg'
    have hpre : ∀ y ∈ pre, y < a.length := by
      intro y hy
      rw [ha]
      exact himg y (by rw [himg']; exact List.mem_append_left _ hy)
    obtain ⟨u, h1, h2⟩ := for_each_some pre a hpre
    refine ⟨u, h1, ?_⟩
    rw [h2, ha]
    exact himg x (by rw [himg']; exact List.mem_append_right _ (List.mem_cons_self _ _))
  have hid : (identity num_bins).length = num_bins := by simp [identity]
  obtain ⟨h, h1, _⟩ := for_each_some img (identity num_bins) (by rw [hid]; exact himg)
  obtain ⟨w, h2, _⟩ := for_each_some img v (by rw [hv]; exact himg)
  exact ⟨⟨h, h1⟩, ⟨w, h2⟩, access _ hid, access v hv⟩

/-- Witness of C16 on the image 255, 254, ..., 0 and the accumulator of 256
counters all equal to 7. -/
theorem index_safety_witness :
    (∀ x ∈ (List.range 256).reverse, x < 256) ∧
    (List.replicate 256 (7 : Int)).length = num_bins ∧
    (∃ h, hist num_bins (List.range 256).reverse = some h) ∧
    (∃ w, body (List.range 256).reverse (List.replicate 256 7) = some w) ∧
    (∀ pre x post, (List.range 256).reverse = pre ++ x :: post →
      ∃ u, for_each pre (identity num_bins) = some u ∧ x < u.length) ∧
    (∀ pre x post, (List.range 256).reverse = pre ++ x :: post →
      ∃ u, for_each pre (List.replicate 256 7) = some u ∧ x < u.length) :=
  have himg : ∀ x ∈ (List.range 256).reverse, x < 256 := fun _ hx =>
    List.mem_range.mp (List.mem_reverse.mp hx)
  have hv : (List.replicate 256 (7 : Int)).length = num_bins := List.length_replicate _ _
  ⟨himg, hv, index_safety (List.range 256).reverse (List.replicate 256 7) himg hv⟩

/-! ## Shape invariant -/

/-- Claim C19: every histogram of the computation has exactly `nb` counters:
the identity; the result of the body lambda on any accumulator of `nb`
counters; the result of merging two histograms of `nb` counters, the merge
loop's accesses `a[i]` and `b[i]` all being in bounds; the result of every
schedule; and the final serial and parallel histograms, which therefore have
equal length. -/
theorem shape_invariant (nb : Nat) (t : Schedule) (r : List Nat) (v a b : vector_t)
    (hr : ∀ x ∈ r, x < nb) (hv : v.length = nb) (ha : a.length = nb) (hb : b.length = nb) :
    (identity nb).length = nb ∧
    (∃ w, body r v = some w ∧ w.length = nb) ∧
    (∃ m, merge nb a b = some m ∧ m.length = nb) ∧
    (∃ w, reduce nb t r v = some w ∧ w.length = nb) ∧
    (∃ h hp, hist nb r = some h ∧ hist_p nb t r = some hp ∧ h.length = nb ∧ hp.length = nb ∧
      h.length = hp.length) := by
  have hid : (identity nb).length = nb := by simp [identity]
  obtain ⟨w, h1, h2⟩ := for_each_some r v (by rw [hv]; exact hr)
  obtain ⟨h, h3, h4⟩ := for_each_some r (identity nb) (by rw [hid]; exact hr)
  obtain ⟨hp, h5, h6⟩ := reduce_some nb t r (identity nb) hid hr
  refine ⟨hid, ⟨w, h1, by rw [h2, hv]⟩, ⟨addv a b, merge_eq_addv ha hb, ?_⟩,
    reduce_some nb t r v hv hr, h, hp, h3, h5, by rw [h4, hid], h6, by rw [h4, hid, h6]⟩
  rw [addv_length a b (by rw [ha, hb]), ha]

/-- Witness of C19 with three bins, the range `[2,0,2,1]` split after one
sample. -/
theorem shape_invariant_witness :
    (∀ x ∈ [2, 0, 2, 1], x < 3) ∧ ([9, 9, 9] : vector_t).length = 3 ∧
    ([1, 2, 0] : vector_t).length = 3 ∧ ([4, 0, 7] : vector_t).length = 3 ∧
    (identity 3).length = 3 ∧
    (∃ w, body [2, 0, 2, 1] [9, 9, 9] = some w ∧ w.length = 3) ∧
    (∃ m, merge 3 [1, 2, 0] [4, 0, 7] = some m ∧ m.length = 3) ∧
    (∃ w, reduce 3 (.fork 1 .leaf .leaf) [2, 0, 2, 1] [9, 9, 9] = some w ∧ w.length = 3) ∧
    (∃ h hp, hist 3 [2, 0, 2, 1] = some h ∧ hist_p 3 (.fork 1 .leaf .leaf) [2, 0, 2, 1] = some hp ∧
      h.length = 3 ∧ hp.length = 3 ∧ h.length = hp.length) :=
  ⟨by decide, rfl, rfl, rfl,
    shape_invariant 3 (.fork 1 .leaf .leaf) [2, 0, 2, 1] [9, 9, 9] [1, 2, 0] [4, 0, 7]
      (by decide) rfl rfl rfl⟩

/-! ## Exact and 32-bit arithmetic agree below the bound -/

theorem for_each_exact_eq (bound : Int) (hb : bound ≤ 2147483647) (r : List Nat) :
    ∀ v : vector_t, (∀ x ∈ r, x < v.length) →
      (∀ j, j < v.length → 0 ≤ v.getD j 0 ∧ v.getD j 0 + (r.count j : Int) ≤ bound) →
      for_each_exact bound r v = for_each r v := by
  induction r with
  | nil => intro v _ _; rfl
  | cons x r ih =>
    intro v hr hv
    have hx : x < v.length := hr x (List.mem_cons_self _ _)
    have hvx := hv x hx
    rw [getD_of_lt v hx, List.count_cons_self] at hvx
    have h0 : 0 ≤ v[x] + 1 ∧ v[x] + 1 ≤ bound := by
      push_cast at hvx
      omega
    have hw : wrap32 (v[x] + 1) = v[x] + 1 := wrap32_of_int (by omega)
    simp only [for_each_exact, for_each, incr_exact, incr, dif_pos hx, if_pos h0, hw]
    apply ih
    · intro y hy
      rw [List.length_set]
      exact hr y (List.mem_cons_of_mem _ hy)
    · intro j hj
      rw [List.length_set] at hj
      have hvj := hv j hj
      rw [List.count_cons] at hvj
      rw [getD_set _ _ _ _ hx]
      by_cases hxj : x = j
      · subst hxj
        rw [getD_of_lt v hx] at hvj
        simp only [beq_self_eq_true, if_true] at hvj ⊢
        push_cast at hvj
        omega
      · have hne : (x == j) = false := by simpa using hxj
        simp only [hne, hxj, if_false] at hvj ⊢
        simpa using hvj

theorem merge_loop_exact_eq (bound : Int) (hb : bound ≤ 2147483647) (b : vector_t) :
    ∀ (k i : Nat) (a : vector_t), i + k ≤ a.length → i + k ≤ b.length →
      (∀ j, i ≤ j → j < i + k →
        0 ≤ a.getD j 0 + b.getD j 0 ∧ a.getD j 0 + b.getD j 0 ≤ bound) →
      merge_loop_exact bound b k i a = merge_loop b k i a := by
  intro k
  induction k with
  | zero => intro i a _ _ _; rfl
  | succ k ih =>
    intro i a ha hlb hs
    have hia : i < a.length := by omega
    have hib : i < b.length := by omega
    have hi := hs i (Nat.le_refl i) (by omega)
    rw [getD_of_lt a hia, getD_of_lt b hib] at hi
    have hw : wrap32 (a[i] + b[i]) = a[i] + b[i] := wrap32_of_int (by omega)
    simp only [merge_loop_exact, merge_loop, dif_pos (And.intro hia hib), if_pos hi, hw]
    apply ih
    · rw [List.length_set]; omega
    · omega
    · intro j h1 h2
      rw [getD_set _ _ _ _ hia, if_neg (by omega)]
      exact hs j (by omega) (by omega)

theorem isIntVec_of_bounds {v : vector_t} {bound : Int} (hb : bound ≤ 2147483647)
    (hv : ∀ j, j < v.length → 0 ≤ v.getD j 0 ∧ v.getD j 0 ≤ bound) : IsIntVec v := by
  intro c hc
  obtain ⟨j, hj, rfl⟩ := List.getElem_of_mem hc
  have := hv j hj
  rw [getD_of_lt v hj] at this
  omega

theorem count_take_add_drop (r : List Nat) (k j : Nat) :
    (r.count j : Int) = ((r.take k).count j : Int) + ((r.drop k).count j : Int) := by
  have : r.count j = (r.take k).count j + (r.drop k).count j := by
    rw [← List.count_append, List.take_append_drop]
  rw [this]
  push_cast
  rfl

theorem tally_getD_exact (r : List Nat) (v : vector_t) {j : Nat} (hj : j < v.length)
    (h0 : 0 ≤ v.getD j 0) (h1 : v.getD j 0 + (r.count j : Int) ≤ 2147483647) :
    (tally r v).getD j 0 = v.getD j 0 + (r.count j : Int) := by
  rw [tally_getD r v hj]
  exact wrap32_of_int (by omega)

theorem reduce_exact_eq (bound : Int) (hb : bound ≤ 2147483647) (nb : Nat) (t : Schedule) :
    ∀ (r : List Nat) (v : vector_t), v.length = nb → (∀ x ∈ r, x < nb) →
      (∀ j, j < nb → 0 ≤ v.getD j 0 ∧ v.getD j 0 + (r.count j : Int) ≤ bound) →
      reduce_exact bound nb t r v = reduce nb t r v := by
  induction t with
  | leaf =>
    intro r v hl hr hv
    exact for_each_exact_eq bound hb r v (by rw [hl]; exact hr) (by rw [hl]; exact hv)
  | seq k l rt ihl ihr =>
    intro r v hl hr hv
    have hrl : ∀ x ∈ r.take k, x < nb := fun x hx => hr x (List.mem_of_mem_take hx)
    have hrr : ∀ x ∈ r.drop k, x < nb := fun x hx => hr x (List.mem_of_mem_drop hx)
    have hvi : IsIntVec v := isIntVec_of_bounds hb (by
      intro j hj
      have := hv j (by rw [← hl]; exact hj)
      omega)
    have e1 := ihl (r.take k) v hl hrl (by
      intro j hj
      have := hv j hj
      have := count_take_add_drop r k j
      omega)
    have v1 := reduce_eq_tally nb l (r.take k) v hl hvi hrl
    have e2 := ihr (r.drop k) (tally (r.take k) v) (by rw [tally_length, hl]) hrr (by
      intro j hj
      have := hv j hj
      have := count_take_add_drop r k j
      rw [tally_getD_exact (r.take k) v (by rw [hl]; exact hj) (by omega) (by omega)]
      omega)
    simp only [reduce_exact, reduce, e1, v1, e2]
  | fork k l rt ihl ihr =>
    intro r v hl hr hv
    have hrl : ∀ x ∈ r.take k, x < nb := fun x hx => hr x (List.mem_of_mem_take hx)
    have hrr : ∀ x ∈ r.drop k, x < nb := fun x hx => hr x (List.mem_of_mem_drop hx)
    have hid : (identity nb).length = nb := by simp [identity]
    have hz : ∀ j, j < nb → (identity nb).getD j 0 = 0 := by
      intro j hj
      rw [getD_of_lt _ (by rw [hid]; exact hj)]
      simp [identity]
    have hvi : IsIntVec v := isIntVec_of_bounds hb (by
      intro j hj
      have := hv j (by rw [← hl]; exact hj)
      omega)
    have e1 := ihl (r.take k) v hl hrl (by
      intro j hj
      have := hv j hj
      have := count_take_add_drop r k j
      omega)
    have v1 := reduce_eq_tally nb l (r.take k) v hl hvi hrl
    have e2 := ihr (r.drop k) (identity nb) hid hrr (by
      intro j hj
      have := hv j hj
      have := count_take_add_drop r k j
      rw [hz j hj]
      omega)
    have v2 := reduce_eq_tally nb rt (r.drop k) (identity nb) hid (isIntVec_identity nb) hrr
    have la : (tally (r.take k) v).length = nb := by rw [tally_length, hl]
    have lb : (tally (r.drop k) (identity nb)).length = nb := tally_identity_length nb _
    simp only [reduce_exact, reduce, e1, v1, e2, v2]
    unfold merge_exact merge
    apply merge_loop_exact_eq bound hb _ nb 0 _ (by omega) (by omega)
    intro j _ hj
    have hj' : j < nb := by omega
    have := hv j hj'
    have := count_take_add_drop r k j
    rw [tally_getD_exact (r.take k) v (by rw [hl]; exact hj') (by omega) (by omega),
      tally_getD_exact (r.drop k) (identity nb) (by rw [hid]; exact hj')
        (by rw [hz j hj']) (by rw [hz j hj']; omega),
      hz j hj']
    omega

/-- Claim C17: the design size `n` = 1000000000 is at most 2147483647, and for
every sample sequence of at most 2147483647 samples (so of `n` samples), all in
`[0, nb)`, and every schedule: the run in exact integer arithmetic, which
stops as soon as a counter written by `hist[i]++`, `v[i]++` or `a[i] += b[i]`
leaves `[0, length]`, never stops and returns what the 32-bit run returns, for
the serial pass and for the parallel reduction; every counter of the final
histogram lies in `[0, length]`. -/
theorem no_overflow (nb : Nat) (img : List Nat) (t : Schedule) (hs : ∀ x ∈ img, x < nb)
    (hl : img.length ≤ 2147483647) :
    n ≤ 2147483647 ∧
    hist_exact img.length nb img = hist nb img ∧
    hist_p_exact img.length nb t img = hist_p nb t img ∧
    ∃ h, hist nb img = some h ∧ hist_p nb t img = some h ∧
      ∀ c ∈ h, 0 ≤ c ∧ c ≤ (img.length : Int) := by
  have hb : (img.length : Int) ≤ 2147483647 := by omega
  have hid : (identity nb).length = nb := by simp [identity]
  have hz : ∀ j, j < nb → (identity nb).getD j 0 = 0 := by
    intro j hj
    rw [getD_of_lt _ (by rw [hid]; exact hj)]
    simp [identity]
  have hv : ∀ j, j < nb →
      0 ≤ (identity nb).getD j 0 ∧ (identity nb).getD j 0 + (img.count j : Int) ≤ img.length := by
    intro j hj
    have : img.count j ≤ img.length := List.count_le_length j img
    rw [hz j hj]
    omega
  refine ⟨by decide, ?_, reduce_exact_eq _ hb nb t img (identity nb) hid hs hv,
    tally img (identity nb), hist_eq_tally hs, hist_p_eq_tally t hs, ?_⟩
  · exact for_each_exact_eq _ hb img (identity nb) (by rw [hid]; exact hs) (by rw [hid]; exact hv)
  · intro c hc
    obtain ⟨j, hj, rfl⟩ := List.getElem_of_mem hc
    have hj' : j < nb := by rw [tally_identity_length] at hj; exact hj
    have h1 := tally_getD_exact img (identity nb) (by rw [hid]; exact hj')
      (by rw [hz j hj']) (by have := hv j hj'; omega)
    rw [getD_of_lt _ hj, hz j hj'] at h1
    have : img.count j ≤ img.length := List.count_le_length j img
    rw [h1]
    omega

/-- Witness of C17 on the samples `[0,1,1,3]` with four bins, the range split
in the middle. -/
theorem no_overflow_witness :
    (∀ x ∈ [0, 1, 1, 3], x < 4) ∧ ([0, 1, 1, 3] : List Nat).length ≤ 2147483647 ∧
    n ≤ 2147483647 ∧
    hist_exact ([0, 1, 1, 3] : List Nat).length 4 [0, 1, 1, 3] = hist 4 [0, 1, 1, 3] ∧
    hist_p_exact ([0, 1, 1, 3] : List Nat).length 4 (.fork 2 .leaf .leaf) [0, 1, 1, 3]
      = hist_p 4 (.fork 2 .leaf .leaf) [0, 1, 1, 3] ∧
    ∃ h, hist 4 [0, 1, 1, 3] = some h ∧ hist_p 4 (.fork 2 .leaf .leaf) [0, 1, 1, 3] = some h ∧
      ∀ c ∈ h, 0 ≤ c ∧ c ≤ (([0, 1, 1, 3] : List Nat).length : Int) :=
  ⟨by decide, by decide, no_overflow 4 [0, 1, 1, 3] (.fork 2 .leaf .leaf) (by decide) (by decide)⟩

/-! ## Draws and stored samples -/

theorem generate_n_acc {σ : Type} (uniform : σ → Int × σ) : ∀ (count : Nat) (mte : σ)
    (img : List Nat),
    (generate_n uniform count mte img).1 = img ++ (generate_n uniform count mte []).1 := by
  intro count
  induction count with
  | zero => intro mte img; simp [generate_n]
  | succ k ih =>
    intro mte img
    simp only [generate_n]
    rw [ih (uniform mte).2 (img ++ [to_uint8 (uniform mte).1]),
      ih (uniform mte).2 ([] ++ [to_uint8 (uniform mte).1])]
    simp

/-- Claim C18: the distribution `uniform{0,num_bins}` ranges over the closed
interval from 0 to `num_bins`, so 256 is a possible draw; `generate_n` stores
each draw `d` as `d mod 256`; hence a draw of `num_bins` is stored as sample 0,
a possible draw is stored as 0 exactly when it is 0 or 256, and as a value `v`
in 1..255 exactly when it is `v`. -/
theorem draw_stored {σ : Type} (uniform : σ → Int × σ) (mte : σ) (count : Nat) (d : Int)
    (v : Nat) (hd : IsDraw d) (hv : 1 ≤ v ∧ v ≤ 255) :
    IsDraw (num_bins : Int) ∧ ¬ IsDraw ((num_bins : Int) + 1) ∧ ¬ IsDraw (-1) ∧
    image uniform (count + 1) mte
      = to_uint8 (uniform mte).1 :: image uniform count (uniform mte).2 ∧
    (to_uint8 d : Int) = d % 256 ∧
    to_uint8 (num_bins : Int) = 0 ∧
    (to_uint8 d = 0 ↔ d = 0 ∨ d = (num_bins : Int)) ∧
    (to_uint8 d = v ↔ d = (v : Int)) := by
  have hd' : 0 ≤ d ∧ d ≤ 256 := by
    unfold IsDraw uniform_a uniform_b num_bins at hd
    omega
  refine ⟨?_, ?_, ?_, ?_, ?_, ?_, ?_, ?_⟩
  · unfold IsDraw uniform_a uniform_b num_bins
    omega
  · unfold IsDraw uniform_a uniform_b num_bins
    omega
  · unfold IsDraw uniform_a uniform_b num_bins
    omega
  · unfold image
    simp only [generate_n]
    rw [generate_n_acc uniform count (uniform mte).2 ([] ++ [to_uint8 (uniform mte).1])]
    simp
  · unfold to_uint8
    omega
  · unfold to_uint8 num_bins
    decide
  · unfold to_uint8 num_bins
    omega
  · unfold to_uint8
    omega

/-- Witness of C18 at the draw 256 and the value 7, for the generator that
returns its state and advances it by one, seeded at 255. -/
theorem draw_stored_witness :
    IsDraw 256 ∧ (1 ≤ 7 ∧ 7 ≤ 255) ∧
    IsDraw (num_bins : Int) ∧ ¬ IsDraw ((num_bins : Int) + 1) ∧ ¬ IsDraw (-1) ∧
    image (fun s : Nat => ((s : Int), s + 1)) (2 + 1) 255
      = to_uint8 ((fun s : Nat => ((s : Int), s + 1)) 255).1
        :: image (fun s : Nat => ((s : Int), s + 1)) 2 ((fun s : Nat => ((s : Int), s + 1)) 255).2 ∧
    (to_uint8 256 : Int) = 256 % 256 ∧
    to_uint8 (num_bins : Int) = 0 ∧
    (to_uint8 256 = 0 ↔ (256 : Int) = 0 ∨ (256 : Int) = (num_bins : Int)) ∧
    (to_uint8 256 = 7 ↔ (256 : Int) = ((7 : Nat) : Int)) :=
  ⟨by unfold IsDraw uniform_a uniform_b num_bins; decide, by decide,
    draw_stored (fun s : Nat => ((s : Int), s + 1)) 255 2 256 7
      (by unfold IsDraw uniform_a uniform_b num_bins; decide) (by decide)⟩

end Histogram
